import Mathlib

/-!
Shallow embedding of `Source/WebCore/platform/graphics/android/utils/LinearAllocator.cpp`.

Modelling choices, each tied to the source:

* Addresses are natural numbers; the C++ null pointer is the address `0`.
* `malloc` is modelled as a deterministic fresh-block allocator: the k-th page
  (0-based, counted by the ghost field `allocCount`) is placed at base address
  `(k + 1) * pageSize`, so distinct pages occupy disjoint, increasing address
  ranges and no page contains address `0`.  The claims assume every backing
  block allocation succeeds, which this model realises.
* `size_t` and `unsigned` values are modelled as `Nat`.  The source targets a
  32-bit platform (it casts pointers to `unsigned`); the arithmetic here
  coincides with the machine arithmetic whenever no 32-bit overflow occurs,
  which covers every page-local computation since `pageSize` is a few KiB.
* `sizeof(LinearAllocator::Page)` is `4` on the 32-bit target: the class holds
  a single `Page* m_nextPage` field.
* The page chain headed by `m_pages` is represented by the list of page base
  addresses obtained by following the `m_nextPage` links from the head;
  `p->setNext(q)` on a page `p` replaces the chain suffix after `p` by `q`.
-/

namespace WebCore

/-- TARGET_PAGE_SIZE from the source: the ideal size of a page allocation
(16 KiB). -/
def TARGET_PAGE_SIZE : Nat := 16384

/-- MIN_OBJECT_COUNT from the source: the pool needs to be big enough to hold
at least this many items. -/
def MIN_OBJECT_COUNT : Nat := 4

/-- The size of the per-page header, `sizeof(LinearAllocator::Page)`: one
`Page* m_nextPage` pointer on the 32-bit target, so 4 bytes. -/
def headerSize : Nat := 4

/-- State of a `LinearAllocator`.  `pageSize`, `maxAllocSize`, `next`
(`m_next`, the bump cursor, `0` = null), `currentPage` (`m_currentPage` as the
base address of the current page, `none` = null) and `pages` (the chain headed
by `m_pages`, as the list of base addresses in `m_nextPage` order) mirror the
C++ data members; `allocCount` is a ghost counter of pages malloc'd so far,
driving the deterministic address layout of `newPage`. -/
structure LinearAllocator where
  pageSize : Nat
  maxAllocSize : Nat
  next : Nat
  currentPage : Option Nat
  pages : List Nat
  allocCount : Nat
  deriving DecidableEq

/-- The constructor `LinearAllocator::LinearAllocator(size_t averageAllocSize)`. -/
def init (averageAllocSize : Nat) : LinearAllocator :=
  let pageSize :=
    if averageAllocSize ≠ 0 then
      let usablePageSize := TARGET_PAGE_SIZE - headerSize
      let pcount := usablePageSize / averageAllocSize
      let pcount := if pcount < MIN_OBJECT_COUNT then MIN_OBJECT_COUNT else pcount
      pcount * averageAllocSize + headerSize
    else
      TARGET_PAGE_SIZE
  { pageSize := pageSize
    maxAllocSize := pageSize - headerSize
    next := 0
    currentPage := none
    pages := []
    allocCount := 0 }

/-- `LinearAllocator::start(Page* p)`: the usable region of page `p` begins
right after the page header. -/
def start (p : Nat) : Nat := p + headerSize

/-- `LinearAllocator::end(Page* p)`: one past the last usable byte of page
`p`. -/
def pageEnd (a : LinearAllocator) (p : Nat) : Nat := p + a.pageSize

/-- The base address handed out by `LinearAllocator::newPage()` (malloc
modelled as the deterministic fresh-block allocator described in the module
comment). -/
def newPageBase (a : LinearAllocator) : Nat := (a.allocCount + 1) * a.pageSize

/-- Effect of `cp->setNext(p)` on the chain read from the head: the suffix of
the chain after the first occurrence of `cp` is replaced by `p`. -/
def setNextOfCurrent : List Nat → Nat → Nat → List Nat
  | [], _, _ => []
  | q :: rest, cp, p => if q = cp then [q, p] else q :: setNextOfCurrent rest cp p

/-- `LinearAllocator::ensureNext(size_t size)`. -/
def ensureNext (a : LinearAllocator) (size : Nat) : LinearAllocator :=
  if a.next ≠ 0 ∧ a.next + size ≤ pageEnd a (a.currentPage.getD 0) then a
  else
    let p := newPageBase a
    let chain :=
      match a.currentPage with
      | some cp => setNextOfCurrent a.pages cp p
      | none => a.pages
    { a with
      currentPage := some p
      pages := if chain.isEmpty then [p] else chain
      next := start p
      allocCount := a.allocCount + 1 }

/-- `LinearAllocator::memusage()`: walk the chain, adding `m_pageSize` per
page. -/
def memusage (a : LinearAllocator) : Nat :=
  a.pages.foldl (fun m _ => m + a.pageSize) 0

/-- `LinearAllocator::alloc(size_t size)`: returns the updated state together
with the returned pointer (`none` models the null return on an oversized
request). -/
def alloc (a : LinearAllocator) (size : Nat) : LinearAllocator × Option Nat :=
  if size > a.maxAllocSize then (a, none)
  else
    let a1 := ensureNext a size
    ({ a1 with next := a1.next + size }, some a1.next)

/-- `LinearAllocator::rewindTo(void* ptr)`.  When `m_currentPage` is null the
C++ code still evaluates `start(m_currentPage)` and `end(m_currentPage)`,
computing addresses `headerSize` and `pageSize` from the null pointer; the
`Option.getD 0` reproduces exactly that. -/
def rewindTo (a : LinearAllocator) (ptr : Nat) : LinearAllocator :=
  if start (a.currentPage.getD 0) ≤ ptr ∧ ptr < pageEnd a (a.currentPage.getD 0) then
    { a with next := ptr }
  else a

/-- One client-visible mutating call of the API. -/
inductive Op where
  | alloc (size : Nat)
  | rewind (ptr : Nat)
  deriving DecidableEq

/-- State transition of a single call. -/
def step (a : LinearAllocator) : Op → LinearAllocator
  | .alloc s => (alloc a s).1
  | .rewind p => rewindTo a p

/-- Run a sequence of calls. -/
def run (a : LinearAllocator) (ops : List Op) : LinearAllocator :=
  ops.foldl step a

/-- A state is reachable when some call sequence on a freshly constructed
allocator produces it. -/
def Reachable (a : LinearAllocator) : Prop :=
  ∃ avg ops, run (init avg) ops = a

/-- A returned region: its address and requested size. -/
abbrev Region := Nat × Nat

/-- `step`, instrumented with the ghost log of live regions: every successful
`alloc` prepends its region; an in-range `rewindTo p` retracts the cursor to
`p`, so a region stays live exactly when it lies entirely below `p` (a region
whose bytes reach at or above `p` has been abandoned by the rewind). -/
def logStep : LinearAllocator × List Region → Op → LinearAllocator × List Region
  | (a, log), .alloc s =>
    ((alloc a s).1,
      match (alloc a s).2 with
      | some p => (p, s) :: log
      | none => log)
  | (a, log), .rewind p =>
    (rewindTo a p,
      if start (a.currentPage.getD 0) ≤ p ∧ p < pageEnd a (a.currentPage.getD 0) then
        log.filter (fun r => decide (r.1 + r.2 ≤ p))
      else log)

/-- Run a call sequence with the ghost log. -/
def logRun (s : LinearAllocator × List Region) (ops : List Op) :
    LinearAllocator × List Region :=
  ops.foldl logStep s

/-- A state together with its live-region log is reachable when some call
sequence on a fresh allocator produces it. -/
def ReachableL (a : LinearAllocator) (log : List Region) : Prop :=
  ∃ avg ops, logRun (init avg, []) ops = (a, log)

/-- The page chain produced by `n` page allocations under the deterministic
layout: bases `1 * ps, 2 * ps, …, n * ps`. -/
def chainOf (ps : Nat) : Nat → List Nat
  | 0 => []
  | n + 1 => chainOf ps n ++ [(n + 1) * ps]

/-- Total bytes carved out of the page with base address `base` (span
`[base, base + ps)`): the sum of the sizes of the logged regions whose address
lies in that span. -/
def carvedIn (log : List Region) (base ps : Nat) : Nat :=
  ((log.filter (fun r => decide (base ≤ r.1 ∧ r.1 < base + ps))).map (fun r => r.2)).sum

/-- State invariant of reachable allocator states. -/
structure Inv (a : LinearAllocator) : Prop where
  hps : a.pageSize = a.maxAllocSize + headerSize
  hmax : 0 < a.maxAllocSize
  hpages : a.pages = chainOf a.pageSize a.allocCount
  hcur : a.currentPage = if a.allocCount = 0 then none else some (a.allocCount * a.pageSize)
  hnext_le : a.next ≤ a.currentPage.getD 0 + a.pageSize
  hnext_lo : ∀ cp, a.currentPage = some cp → start cp ≤ a.next

/-- Invariant of reachable states together with their live-region log: every
live region lies entirely below the bump cursor. -/
structure InvL (a : LinearAllocator) (log : List Region) extends Inv a : Prop where
  hlog : ∀ r ∈ log, r.1 + r.2 ≤ a.next

/-- Invariant of states reached by alloc-only call sequences: the bytes carved
out of the current page fit below the cursor, and the bytes carved out of any
other page fit in that page's usable capacity. -/
structure AOInv (a : LinearAllocator) (log : List Region) extends InvL a log : Prop where
  hcarv_cur : ∀ cp, a.currentPage = some cp →
    carvedIn log cp a.pageSize + (cp + headerSize) ≤ a.next
  hcarv_old : ∀ base ∈ a.pages, a.currentPage ≠ some base →
    carvedIn log base a.pageSize + headerSize ≤ a.pageSize

/-- First state invariant claimed by the spec data model: the bump cursor,
when non-null, lies within the current page's span
(from `start(currentPage)` to `end(currentPage)`, bounds included). -/
def cursorInCurrent (a : LinearAllocator) : Prop :=
  a.next ≠ 0 →
    match a.currentPage with
    | some cp => start cp ≤ a.next ∧ a.next ≤ pageEnd a cp
    | none => False

/-- Second state invariant claimed by the spec data model: the current page is
always the last page of the chain reachable from the chain head. -/
def currentIsLast (a : LinearAllocator) : Prop :=
  ∀ cp, a.currentPage = some cp → a.pages.getLast? = some cp

/-- The conjunction of the spec's claimed state invariants. -/
def StateInv (a : LinearAllocator) : Prop := cursorInCurrent a ∧ currentIsLast a

/-! Basic lemmas about the embedded definitions. -/

lemma init_next (avg : Nat) : (init avg).next = 0 := rfl

lemma init_currentPage (avg : Nat) : (init avg).currentPage = none := rfl

lemma init_pages (avg : Nat) : (init avg).pages = [] := rfl

lemma init_allocCount (avg : Nat) : (init avg).allocCount = 0 := rfl

lemma init_maxAllocSize (avg : Nat) :
    (init avg).maxAllocSize = (init avg).pageSize - headerSize := rfl

lemma init_pageSize_zero : (init 0).pageSize = TARGET_PAGE_SIZE := rfl

lemma ite_min_count_eq_max (x : Nat) :
    (if x < MIN_OBJECT_COUNT then MIN_OBJECT_COUNT else x) = max MIN_OBJECT_COUNT x := by
  rcases Nat.lt_or_ge x MIN_OBJECT_COUNT with h | h
  · rw [if_pos h, Nat.max_eq_left (Nat.le_of_lt h)]
  · rw [if_neg (Nat.not_lt.mpr h), Nat.max_eq_right h]

lemma init_pageSize_of_pos {avg : Nat} (h : avg ≠ 0) :
    (init avg).pageSize =
      max MIN_OBJECT_COUNT ((TARGET_PAGE_SIZE - headerSize) / avg) * avg + headerSize := by
  simp only [init, if_pos h]
  rw [ite_min_count_eq_max]

lemma headerSize_lt_init_pageSize (avg : Nat) : headerSize < (init avg).pageSize := by
  by_cases h : avg = 0
  · subst h; decide
  · rw [init_pageSize_of_pos h]
    have h1 : 0 < avg := Nat.pos_of_ne_zero h
    have h4 : 0 < max MIN_OBJECT_COUNT ((TARGET_PAGE_SIZE - headerSize) / avg) :=
      Nat.lt_of_lt_of_le (by decide) (Nat.le_max_left _ _)
    have h5 : 0 < max MIN_OBJECT_COUNT ((TARGET_PAGE_SIZE - headerSize) / avg) * avg :=
      Nat.mul_pos h4 h1
    omega

lemma init_inv (avg : Nat) : Inv (init avg) := by
  have hlt := headerSize_lt_init_pageSize avg
  refine ⟨?_, ?_, rfl, rfl, Nat.zero_le _, ?_⟩
  · rw [init_maxAllocSize, Nat.sub_add_cancel (Nat.le_of_lt hlt)]
  · rw [init_maxAllocSize]; omega
  · intro cp hcp
    rw [init_currentPage] at hcp
    cases hcp

/-! Lemmas about the page chain under the deterministic layout. -/

lemma chainOf_succ (ps n : Nat) : chainOf ps (n + 1) = chainOf ps n ++ [(n + 1) * ps] := rfl

lemma mem_chainOf {ps n q : Nat} (h : q ∈ chainOf ps n) : ∃ k, k < n ∧ q = (k + 1) * ps := by
  induction n with
  | zero => simp [chainOf] at h
  | succ m ih =>
    rw [chainOf_succ] at h
    rcases List.mem_append.mp h with h | h
    · rcases ih h with ⟨k, hk, hq⟩
      exact ⟨k, Nat.lt_succ_of_lt hk, hq⟩
    · exact ⟨m, Nat.lt_succ_self m, List.mem_singleton.mp h⟩

lemma length_chainOf (ps n : Nat) : (chainOf ps n).length = n := by
  induction n with
  | zero => rfl
  | succ m ih => rw [chainOf_succ]; simp [ih]

lemma getLast?_chainOf (ps : Nat) {n : Nat} (h : n ≠ 0) :
    (chainOf ps n).getLast? = some (n * ps) := by
  cases n with
  | zero => exact absurd rfl h
  | succ m => rw [chainOf_succ, List.getLast?_concat]

lemma dropLast_chainOf_succ (ps m : Nat) : (chainOf ps (m + 1)).dropLast = chainOf ps m := by
  rw [chainOf_succ, List.dropLast_concat]

lemma setNextOfCurrent_cons (q : Nat) (rest : List Nat) (cp p : Nat) :
    setNextOfCurrent (q :: rest) cp p =
      if q = cp then [q, p] else q :: setNextOfCurrent rest cp p := rfl

lemma setNextOfCurrent_eq_append : ∀ (L : List Nat) (cp x : Nat),
    (∀ q ∈ L.dropLast, q ≠ cp) → L.getLast? = some cp →
    setNextOfCurrent L cp x = L ++ [x]
  | [], _, _, _, hlast => by simp at hlast
  | [q], cp, x, _, hlast => by
    have hq : q = cp := by simpa using hlast
    subst hq
    simp [setNextOfCurrent_cons]
  | q :: r :: rs, cp, x, hdrop, hlast => by
    have hq : q ≠ cp := hdrop q (by simp [List.dropLast])
    have h2 := setNextOfCurrent_eq_append (r :: rs) cp x
      (fun p hp => hdrop p (by simp [List.dropLast, hp]))
      (by simpa using hlast)
    rw [setNextOfCurrent_cons, if_neg hq, h2]
    rfl

/-! Case analyses of `ensureNext` and `alloc`. -/

lemma ensureNext_fits {a : LinearAllocator} {s : Nat}
    (hc : a.next ≠ 0 ∧ a.next + s ≤ pageEnd a (a.currentPage.getD 0)) :
    ensureNext a s = a := by
  rw [ensureNext, if_pos hc]

lemma currentPage_of_allocCount_zero {a : LinearAllocator} (hInv : Inv a)
    (h0 : a.allocCount = 0) : a.currentPage = none := by
  rw [hInv.hcur, h0]
  rfl

lemma currentPage_of_allocCount_pos {a : LinearAllocator} (hInv : Inv a)
    (h0 : a.allocCount ≠ 0) : a.currentPage = some (a.allocCount * a.pageSize) := by
  rw [hInv.hcur, if_neg h0]

lemma pageSize_pos {a : LinearAllocator} (hInv : Inv a) : 0 < a.pageSize := by
  have h1 := hInv.hps
  have h2 := hInv.hmax
  omega

lemma ensureNext_grow {a : LinearAllocator} (hInv : Inv a) {s : Nat}
    (hc : ¬(a.next ≠ 0 ∧ a.next + s ≤ pageEnd a (a.currentPage.getD 0))) :
    ensureNext a s =
      { a with
        pages := a.pages ++ [newPageBase a]
        currentPage := some (newPageBase a)
        next := start (newPageBase a)
        allocCount := a.allocCount + 1 } := by
  rw [ensureNext, if_neg hc]
  rcases Nat.eq_zero_or_pos a.allocCount with h0 | hpos
  · have hcur := currentPage_of_allocCount_zero hInv h0
    have hpag : a.pages = [] := by rw [hInv.hpages, h0]; rfl
    simp [hcur, hpag]
  · have hne : a.allocCount ≠ 0 := Nat.pos_iff_ne_zero.mp hpos
    have hcur := currentPage_of_allocCount_pos hInv hne
    have hps : 0 < a.pageSize := pageSize_pos hInv
    have hset : setNextOfCurrent a.pages (a.allocCount * a.pageSize) (newPageBase a)
        = a.pages ++ [newPageBase a] := by
      apply setNextOfCurrent_eq_append
      · intro q hq
        rw [hInv.hpages] at hq
        obtain ⟨m, hm⟩ : ∃ m, a.allocCount = m + 1 := ⟨a.allocCount - 1, by omega⟩
        rw [hm, dropLast_chainOf_succ] at hq
        rcases mem_chainOf hq with ⟨k, hk, hqe⟩
        subst hqe
        intro hcontra
        have : k + 1 = a.allocCount := Nat.eq_of_mul_eq_mul_right hps hcontra
        omega
      · rw [hInv.hpages]; exact getLast?_chainOf _ hne
    have hnonempty : (a.pages ++ [newPageBase a]).isEmpty = false := by
      simp
    simp [hcur, hset, hnonempty]

lemma alloc_of_le {a : LinearAllocator} {s : Nat} (h : s ≤ a.maxAllocSize) :
    alloc a s =
      ({ ensureNext a s with next := (ensureNext a s).next + s },
        some (ensureNext a s).next) := by
  rw [alloc, if_neg (Nat.not_lt.mpr h)]

lemma alloc_of_gt {a : LinearAllocator} {s : Nat} (h : a.maxAllocSize < s) :
    alloc a s = (a, none) := by
  rw [alloc, if_pos h]

/-! Lemmas about `memusage`. -/

lemma foldl_const_add (ps : Nat) :
    ∀ (l : List Nat) (c : Nat), l.foldl (fun m _ => m + ps) c = c + l.length * ps := by
  intro l
  induction l with
  | nil => intro c; simp
  | cons x xs ih =>
    intro c
    rw [List.foldl_cons, ih]
    simp [List.length_cons]
    ring

lemma memusage_eq (a : LinearAllocator) : memusage a = a.pages.length * a.pageSize := by
  rw [memusage, foldl_const_add]
  simp

lemma memusage_rewindTo (a : LinearAllocator) (p : Nat) :
    memusage (rewindTo a p) = memusage a := by
  rw [rewindTo]
  split <;> rfl

/-! Lemmas about running call sequences. -/

lemma run_cons (a : LinearAllocator) (op : Op) (ops : List Op) :
    run a (op :: ops) = run (step a op) ops := rfl

lemma run_append (a : LinearAllocator) (l1 l2 : List Op) :
    run a (l1 ++ l2) = run (run a l1) l2 := by
  rw [run, run, run, List.foldl_append]

lemma logRun_cons (s : LinearAllocator × List Region) (op : Op) (ops : List Op) :
    logRun s (op :: ops) = logRun (logStep s op) ops := rfl

lemma logStep_fst (a : LinearAllocator) (log : List Region) (op : Op) :
    (logStep (a, log) op).1 = step a op := by
  cases op <;> rfl

lemma logRun_fst (ops : List Op) :
    ∀ s : LinearAllocator × List Region, (logRun s ops).1 = run s.1 ops := by
  induction ops with
  | nil => intro s; rfl
  | cons op rest ih =>
    intro s
    obtain ⟨a, l⟩ := s
    rw [logRun_cons, run_cons, ih (logStep (a, l) op), logStep_fst]

lemma reachable_step {a : LinearAllocator} (h : Reachable a) (op : Op) :
    Reachable (step a op) := by
  rcases h with ⟨avg, ops, hrun⟩
  exact ⟨avg, ops ++ [op], by rw [run_append, hrun]; rfl⟩

/-! Preservation of the invariants. -/

lemma next_le_newPageBase {a : LinearAllocator} (hInv : Inv a) :
    a.next ≤ newPageBase a := by
  have hle := hInv.hnext_le
  rcases Nat.eq_zero_or_pos a.allocCount with h0 | hpos
  · rw [currentPage_of_allocCount_zero hInv h0] at hle
    simp only [Option.getD_none, Nat.zero_add] at hle
    rw [newPageBase, h0]
    omega
  · have hne : a.allocCount ≠ 0 := Nat.pos_iff_ne_zero.mp hpos
    rw [currentPage_of_allocCount_pos hInv hne] at hle
    simp only [Option.getD_some] at hle
    rw [newPageBase]
    calc a.next ≤ a.allocCount * a.pageSize + a.pageSize := hle
      _ = (a.allocCount + 1) * a.pageSize := by ring

lemma invL_grow_state {a : LinearAllocator} {log : List Region} (h : InvL a log) {s : Nat}
    (hle : s ≤ a.maxAllocSize) :
    InvL
      { pageSize := a.pageSize
        maxAllocSize := a.maxAllocSize
        next := start (newPageBase a) + s
        currentPage := some (newPageBase a)
        pages := a.pages ++ [newPageBase a]
        allocCount := a.allocCount + 1 }
      ((start (newPageBase a), s) :: log) := by
  have hnb : a.next ≤ newPageBase a := next_le_newPageBase h.toInv
  refine ⟨⟨h.hps, h.hmax, ?_, ?_, ?_, ?_⟩, ?_⟩
  · show a.pages ++ [newPageBase a] = chainOf a.pageSize (a.allocCount + 1)
    rw [h.hpages, chainOf_succ]
    rfl
  · show some (newPageBase a) =
      if a.allocCount + 1 = 0 then none else some ((a.allocCount + 1) * a.pageSize)
    simp [newPageBase]
  · show start (newPageBase a) + s ≤ (some (newPageBase a)).getD 0 + a.pageSize
    simp only [Option.getD_some]
    have := h.hps
    rw [start]
    omega
  · intro cp hcp
    have hcpe : cp = newPageBase a := by simpa using hcp.symm
    subst hcpe
    exact Nat.le_add_right _ _
  · intro r hr
    rcases List.mem_cons.mp hr with hr | hr
    · subst hr; exact Nat.le_refl _
    · have h1 := h.hlog r hr
      have h2 : newPageBase a ≤ start (newPageBase a) + s := by
        rw [start]; omega
      exact Nat.le_trans h1 (Nat.le_trans hnb h2)

lemma invL_fits_state {a : LinearAllocator} {log : List Region} (h : InvL a log) {s : Nat}
    (hc : a.next ≠ 0 ∧ a.next + s ≤ pageEnd a (a.currentPage.getD 0)) :
    InvL { a with next := a.next + s } ((a.next, s) :: log) := by
  refine ⟨⟨h.hps, h.hmax, h.hpages, h.hcur, ?_, ?_⟩, ?_⟩
  · exact hc.2
  · intro cp hcp
    exact Nat.le_trans (h.hnext_lo cp hcp) (Nat.le_add_right _ _)
  · intro r hr
    rcases List.mem_cons.mp hr with hr | hr
    · subst hr; exact Nat.le_refl _
    · exact Nat.le_trans (h.hlog r hr) (Nat.le_add_right _ _)

lemma invL_logStep {a : LinearAllocator} {log : List Region} (h : InvL a log) (op : Op) :
    InvL (logStep (a, log) op).1 (logStep (a, log) op).2 := by
  cases op with
  | rewind p =>
    by_cases hc : start (a.currentPage.getD 0) ≤ p ∧ p < pageEnd a (a.currentPage.getD 0)
    · have hrw : rewindTo a p = { a with next := p } := by rw [rewindTo, if_pos hc]
      simp only [logStep, if_pos hc, hrw]
      refine ⟨⟨h.hps, h.hmax, h.hpages, h.hcur, ?_, ?_⟩, ?_⟩
      · exact Nat.le_of_lt hc.2
      · intro cp hcp
        have := hc.1
        rw [show ({ a with next := p } : LinearAllocator).currentPage = a.currentPage from rfl]
          at hcp
        rw [hcp] at this
        simpa using this
      · intro r hr
        rcases List.mem_filter.mp hr with ⟨_, hpred⟩
        exact of_decide_eq_true hpred
    · have hrw : rewindTo a p = a := by rw [rewindTo, if_neg hc]
      simp only [logStep, if_neg hc, hrw]
      exact h
  | alloc s =>
    by_cases hgt : a.maxAllocSize < s
    · simp only [logStep, alloc_of_gt hgt]
      exact h
    · have hle : s ≤ a.maxAllocSize := Nat.not_lt.mp hgt
      simp only [logStep, alloc_of_le hle]
      by_cases hc : a.next ≠ 0 ∧ a.next + s ≤ pageEnd a (a.currentPage.getD 0)
      · rw [ensureNext_fits hc]
        exact invL_fits_state h hc
      · rw [ensureNext_grow h.toInv hc]
        exact invL_grow_state h hle

lemma invL_logRun : ∀ (ops : List Op) (s : LinearAllocator × List Region),
    InvL s.1 s.2 → InvL (logRun s ops).1 (logRun s ops).2 := by
  intro ops
  induction ops with
  | nil => intro s h; exact h
  | cons op rest ih =>
    intro s h
    obtain ⟨a, l⟩ := s
    rw [logRun_cons]
    exact ih (logStep (a, l) op) (invL_logStep h op)

lemma invL_init (avg : Nat) : InvL (init avg) [] :=
  ⟨init_inv avg, by intro r hr; cases hr⟩

lemma reachableL_invL {a : LinearAllocator} {log : List Region}
    (h : ReachableL a log) : InvL a log := by
  rcases h with ⟨avg, ops, hrun⟩
  have h2 := invL_logRun ops (init avg, []) (invL_init avg)
  rw [hrun] at h2
  exact h2

lemma reachable_inv {a : LinearAllocator} (h : Reachable a) : Inv a := by
  rcases h with ⟨avg, ops, hrun⟩
  have h2 := invL_logRun ops (init avg, []) (invL_init avg)
  have h3 : (logRun (init avg, []) ops).1 = a := by
    rw [logRun_fst]
    exact hrun
  rw [h3] at h2
  exact h2.toInv

/-! Per-page accounting for alloc-only call sequences. -/

lemma carvedIn_cons (q sz : Nat) (log : List Region) (base ps : Nat) :
    carvedIn ((q, sz) :: log) base ps =
      (if base ≤ q ∧ q < base + ps then sz else 0) + carvedIn log base ps := by
  by_cases h : base ≤ q ∧ q < base + ps <;>
    simp [carvedIn, List.filter_cons, h]

lemma carvedIn_eq_zero_of_le {log : List Region} {base : Nat} (ps : Nat)
    (h : ∀ r ∈ log, r.1 + r.2 ≤ base) : carvedIn log base ps = 0 := by
  rw [carvedIn]
  apply List.sum_eq_zero
  intro x hx
  rcases List.mem_map.mp hx with ⟨r, hr, rfl⟩
  rcases List.mem_filter.mp hr with ⟨hrl, hpred⟩
  have hp := of_decide_eq_true hpred
  have := h r hrl
  omega

lemma current_base_eq {a : LinearAllocator} (hInv : Inv a) {cp : Nat}
    (h : a.currentPage = some cp) : cp = a.allocCount * a.pageSize ∧ a.allocCount ≠ 0 := by
  rcases Nat.eq_zero_or_pos a.allocCount with h0 | hpos
  · rw [currentPage_of_allocCount_zero hInv h0] at h
    cases h
  · have hne := Nat.pos_iff_ne_zero.mp hpos
    rw [currentPage_of_allocCount_pos hInv hne] at h
    exact ⟨(Option.some.inj h).symm, hne⟩

lemma old_page_end_le_next {a : LinearAllocator} (hInv : Inv a) {base : Nat}
    (hb : base ∈ a.pages) (hne : a.currentPage ≠ some base) :
    base + a.pageSize ≤ a.next := by
  rcases Nat.eq_zero_or_pos a.allocCount with h0 | hpos
  · rw [hInv.hpages, h0] at hb
    simp [chainOf] at hb
  · have hne0 := Nat.pos_iff_ne_zero.mp hpos
    have hcur := currentPage_of_allocCount_pos hInv hne0
    have hps := pageSize_pos hInv
    rw [hInv.hpages] at hb
    rcases mem_chainOf hb with ⟨k, hk, rfl⟩
    have hk1 : k + 1 ≠ a.allocCount := by
      intro hcontra
      apply hne
      rw [hcur, ← hcontra]
    have hlo := hInv.hnext_lo _ hcur
    rw [start] at hlo
    have hmul : (k + 1) * a.pageSize + a.pageSize ≤ a.allocCount * a.pageSize := by
      have hk2 : k + 2 ≤ a.allocCount := by omega
      calc (k + 1) * a.pageSize + a.pageSize = (k + 2) * a.pageSize := by ring
        _ ≤ a.allocCount * a.pageSize := Nat.mul_le_mul_right _ hk2
    omega

lemma aoInv_init (avg : Nat) : AOInv (init avg) [] := by
  refine ⟨invL_init avg, ?_, ?_⟩
  · intro cp h
    rw [init_currentPage] at h
    cases h
  · intro base hb
    rw [init_pages] at hb
    cases hb

lemma aoInv_allocStep {a : LinearAllocator} {log : List Region} (h : AOInv a log) (s : Nat) :
    AOInv (logStep (a, log) (.alloc s)).1 (logStep (a, log) (.alloc s)).2 := by
  by_cases hgt : a.maxAllocSize < s
  · simp only [logStep, alloc_of_gt hgt]
    exact h
  · have hle : s ≤ a.maxAllocSize := Nat.not_lt.mp hgt
    simp only [logStep, alloc_of_le hle]
    by_cases hc : a.next ≠ 0 ∧ a.next + s ≤ pageEnd a (a.currentPage.getD 0)
    · rw [ensureNext_fits hc]
      refine ⟨invL_fits_state h.toInvL hc, ?_, ?_⟩
      · intro cp hcp
        dsimp only
        have hcp' : a.currentPage = some cp := hcp
        have hcc := h.hcarv_cur cp hcp'
        have hlo := h.hnext_lo cp hcp'
        rw [start] at hlo
        have hend : a.next + s ≤ cp + a.pageSize := by
          have h2 := hc.2
          rw [hcp'] at h2
          simpa [pageEnd] using h2
        rw [carvedIn_cons]
        by_cases hin : cp ≤ a.next ∧ a.next < cp + a.pageSize
        · rw [if_pos hin]
          omega
        · rw [if_neg hin]
          have hge : cp + a.pageSize ≤ a.next := by
            rcases Nat.lt_or_ge a.next (cp + a.pageSize) with hlt | hge2
            · exact absurd ⟨by omega, hlt⟩ hin
            · exact hge2
          omega
      · intro base hb hne
        dsimp only at hb hne ⊢
        have hb' : base ∈ a.pages := hb
        have hne' : a.currentPage ≠ some base := hne
        have hold := h.hcarv_old base hb' hne'
        have hend := old_page_end_le_next h.toInv hb' hne'
        rw [carvedIn_cons, if_neg (by omega)]
        omega
    · rw [ensureNext_grow h.toInv hc]
      have hps4 : headerSize < a.pageSize := by
        have := h.hps
        have := h.hmax
        omega
      have hnb := next_le_newPageBase h.toInv
      refine ⟨invL_grow_state h.toInvL hle, ?_, ?_⟩
      · intro cp hcp
        dsimp only at hcp ⊢
        have hcpe : cp = newPageBase a := (Option.some.inj hcp).symm
        subst hcpe
        have hzero : carvedIn log (newPageBase a) a.pageSize = 0 :=
          carvedIn_eq_zero_of_le _ (fun r hr => Nat.le_trans (h.hlog r hr) hnb)
        rw [start, carvedIn_cons, if_pos (by omega), hzero]
        omega
      · intro base hb hne
        dsimp only at hb hne ⊢
        have hbne : base ≠ newPageBase a := by
          intro hcontra
          exact hne (by rw [hcontra])
        have hb' : base ∈ a.pages := by
          rcases List.mem_append.mp hb with hb2 | hb2
          · exact hb2
          · exact absurd (List.mem_singleton.mp hb2) hbne
        rw [start, carvedIn_cons]
        by_cases hcase : a.currentPage = some base
        · have hcc := h.hcarv_cur base hcase
          have hle2 := h.hnext_le
          rw [hcase] at hle2
          simp only [Option.getD_some] at hle2
          rcases current_base_eq h.toInv hcase with ⟨hbe, hne0⟩
          have hbp : base + a.pageSize = newPageBase a := by
            rw [hbe, newPageBase]
            ring
          rw [if_neg (by omega)]
          omega
        · have hold := h.hcarv_old base hb' hcase
          have hend := old_page_end_le_next h.toInv hb' hcase
          rw [if_neg (by omega)]
          omega

lemma aoInv_logRun : ∀ (ops : List Op), (∀ op ∈ ops, ∃ s, op = Op.alloc s) →
    ∀ (st : LinearAllocator × List Region), AOInv st.1 st.2 →
    AOInv (logRun st ops).1 (logRun st ops).2 := by
  intro ops
  induction ops with
  | nil => intro _ st h; exact h
  | cons op rest ih =>
    intro hao st h
    obtain ⟨a, l⟩ := st
    rcases hao op (List.mem_cons_self op rest) with ⟨sz, rfl⟩
    rw [logRun_cons]
    exact ih (fun o ho => hao o (List.mem_cons_of_mem _ ho)) _ (aoInv_allocStep h sz)

lemma aoInv_page_bound {a : LinearAllocator} {log : List Region} (h : AOInv a log) :
    ∀ base ∈ a.pages, carvedIn log base a.pageSize + headerSize ≤ a.pageSize := by
  intro base hb
  by_cases hcase : a.currentPage = some base
  · have hcc := h.hcarv_cur base hcase
    have hle := h.hnext_le
    rw [hcase] at hle
    simp only [Option.getD_some] at hle
    omega
  · exact h.hcarv_old base hb hcase

/-! Further consequences used by the claim theorems. -/

lemma ensureNext_next_ne_zero (a : LinearAllocator) (s : Nat) :
    (ensureNext a s).next ≠ 0 := by
  by_cases hc : a.next ≠ 0 ∧ a.next + s ≤ pageEnd a (a.currentPage.getD 0)
  · rw [ensureNext_fits hc]
    exact hc.1
  · rw [ensureNext, if_neg hc]
    show start (newPageBase a) ≠ 0
    rw [start, headerSize]
    omega

lemma next_le_ensureNext {a : LinearAllocator} (hInv : Inv a) (s : Nat) :
    a.next ≤ (ensureNext a s).next := by
  by_cases hc : a.next ≠ 0 ∧ a.next + s ≤ pageEnd a (a.currentPage.getD 0)
  · rw [ensureNext_fits hc]
  · rw [ensureNext_grow hInv hc]
    show a.next ≤ start (newPageBase a)
    have := next_le_newPageBase hInv
    rw [start]
    omega

lemma memusage_alloc_le {a : LinearAllocator} (hInv : Inv a) (s : Nat) :
    memusage a ≤ memusage (alloc a s).1 := by
  by_cases hgt : a.maxAllocSize < s
  · rw [alloc_of_gt hgt]
  · rw [alloc_of_le (Nat.not_lt.mp hgt)]
    have heq : memusage ({ ensureNext a s with next := (ensureNext a s).next + s }) =
        memusage (ensureNext a s) := rfl
    rw [heq]
    by_cases hc : a.next ≠ 0 ∧ a.next + s ≤ pageEnd a (a.currentPage.getD 0)
    · rw [ensureNext_fits hc]
    · rw [ensureNext_grow hInv hc]
      rw [memusage_eq, memusage_eq]
      dsimp only
      rw [List.length_append]
      exact Nat.mul_le_mul_right _ (Nat.le_add_right _ _)

lemma memusage_step_le {a : LinearAllocator} (hInv : Inv a) (op : Op) :
    memusage a ≤ memusage (step a op) := by
  cases op with
  | alloc s => exact memusage_alloc_le hInv s
  | rewind p => rw [step, memusage_rewindTo]

lemma memusage_run_le {a : LinearAllocator} (h : Reachable a) :
    ∀ ops : List Op, memusage a ≤ memusage (run a ops) := by
  intro ops
  induction ops generalizing a with
  | nil => exact Nat.le_refl _
  | cons op rest ih =>
    rw [run_cons]
    exact Nat.le_trans (memusage_step_le (reachable_inv h) op) (ih (reachable_step h op))

lemma pages_length_eq_allocCount {a : LinearAllocator} (hInv : Inv a) :
    a.pages.length = a.allocCount := by
  rw [hInv.hpages, length_chainOf]

lemma stateInv_of_reachable_page {a : LinearAllocator} (hreach : Reachable a)
    {cp : Nat} (hcp : a.currentPage = some cp) : StateInv a := by
  have hInv := reachable_inv hreach
  constructor
  · intro _
    show match a.currentPage with
      | some cp => start cp ≤ a.next ∧ a.next ≤ pageEnd a cp
      | none => False
    rw [hcp]
    refine ⟨hInv.hnext_lo cp hcp, ?_⟩
    have hle := hInv.hnext_le
    rw [hcp] at hle
    simpa [pageEnd] using hle
  · intro cp2 hcp2
    rcases current_base_eq hInv hcp2 with ⟨hbe, hne0⟩
    rw [hInv.hpages, getLast?_chainOf a.pageSize hne0, hbe]

/-! Theorems settling the claims. -/

/-- Claim C1: for every request size with `0 < size ≤ maxAllocSize` (and with
backing block allocation always succeeding, as the model guarantees),
`alloc(size)` returns a non-null pointer to a region of at least `size` bytes
that does not overlap the region returned by any previous successful `alloc`
call that has not been abandoned by a `rewindTo`. -/
theorem claim_C1_alloc_no_overlap (a : LinearAllocator) (log : List Region)
    (hreach : ReachableL a log) (size : Nat) (hpos : 0 < size)
    (hle : size ≤ a.maxAllocSize) :
    ∃ p, (alloc a size).2 = some p ∧ p ≠ 0 ∧
      ∀ r ∈ log, p + size ≤ r.1 ∨ r.1 + r.2 ≤ p := by
  have h := reachableL_invL hreach
  rw [alloc_of_le hle]
  refine ⟨(ensureNext a size).next, rfl, ensureNext_next_ne_zero a size, ?_⟩
  intro r hr
  exact Or.inr (Nat.le_trans (h.hlog r hr) (next_le_ensureNext h.toInv size))

/-- Witness for C1 at a concrete input: the first allocation on a fresh
default-sized arena. -/
theorem claim_C1_witness :
    0 < 8 ∧ 8 ≤ (init 0).maxAllocSize ∧
      ∃ p, (alloc (init 0) 8).2 = some p ∧ p ≠ 0 ∧
        ∀ r ∈ ([] : List Region), p + 8 ≤ r.1 ∨ r.1 + r.2 ≤ p :=
  ⟨by decide, by decide,
    claim_C1_alloc_no_overlap (init 0) [] ⟨0, [], rfl⟩ 8 (by decide) (by decide)⟩

/-- Claim C2: for every `size > maxAllocSize`, `alloc(size)` returns the null
sentinel and leaves the arena state (page chain, current page, bump cursor and
`memusage()`) exactly unchanged. -/
theorem claim_C2_oversized_noop (a : LinearAllocator) (size : Nat)
    (h : a.maxAllocSize < size) :
    alloc a size = (a, none) ∧ (alloc a size).1 = a ∧
      (alloc a size).1.pages = a.pages ∧ (alloc a size).1.currentPage = a.currentPage ∧
      (alloc a size).1.next = a.next ∧ memusage (alloc a size).1 = memusage a := by
  rw [alloc_of_gt h]
  exact ⟨rfl, rfl, rfl, rfl, rfl, rfl⟩

/-- Witness for C2 at a concrete input: an oversized request on a fresh
default-sized arena (`maxAllocSize = 16380`). -/
theorem claim_C2_witness :
    alloc (init 0) 16381 = (init 0, none) ∧ (alloc (init 0) 16381).1 = init 0 ∧
      (alloc (init 0) 16381).1.pages = (init 0).pages ∧
      (alloc (init 0) 16381).1.currentPage = (init 0).currentPage ∧
      (alloc (init 0) 16381).1.next = (init 0).next ∧
      memusage (alloc (init 0) 16381).1 = memusage (init 0) :=
  claim_C2_oversized_noop (init 0) 16381 (by decide)

/-- Claim C3: (a) across any alloc-only call sequence, the bytes carved out of
any single page never exceed that page's usable capacity
`pageSize − headerSize`; (b) when a request (within `maxAllocSize`) does not
fit the current page's remaining space, or no page exists yet, exactly one new
page is allocated and appended as the new tail of the chain, and the bump
cursor is reset to that page's usable start before carving. -/
theorem claim_C3_page_capacity_and_growth :
    (∀ (avg : Nat) (ops : List Op), (∀ op ∈ ops, ∃ s, op = Op.alloc s) →
      ∀ base ∈ (logRun (init avg, []) ops).1.pages,
        carvedIn (logRun (init avg, []) ops).2 base (logRun (init avg, []) ops).1.pageSize
            + headerSize
          ≤ (logRun (init avg, []) ops).1.pageSize) ∧
    (∀ (a : LinearAllocator) (size : Nat), Reachable a → size ≤ a.maxAllocSize →
      ¬(a.next ≠ 0 ∧ a.next + size ≤ pageEnd a (a.currentPage.getD 0)) →
        (alloc a size).1.pages = a.pages ++ [newPageBase a] ∧
        (alloc a size).1.currentPage = some (newPageBase a) ∧
        (alloc a size).2 = some (start (newPageBase a)) ∧
        (alloc a size).1.next = start (newPageBase a) + size) := by
  constructor
  · intro avg ops hao base hb
    exact aoInv_page_bound (aoInv_logRun ops hao (init avg, []) (aoInv_init avg)) base hb
  · intro a size hreach hle hc
    rw [alloc_of_le hle, ensureNext_grow (reachable_inv hreach) hc]
    exact ⟨rfl, rfl, rfl, rfl⟩

/-- Witness for C3 at concrete inputs: two 8-byte allocations on a fresh
default-sized arena for part (a), and the page-creating first allocation for
part (b). -/
theorem claim_C3_witness :
    (∀ base ∈ (logRun (init 0, ([] : List Region)) [Op.alloc 8, Op.alloc 8]).1.pages,
      carvedIn (logRun (init 0, []) [Op.alloc 8, Op.alloc 8]).2 base
          (logRun (init 0, []) [Op.alloc 8, Op.alloc 8]).1.pageSize + headerSize
        ≤ (logRun (init 0, []) [Op.alloc 8, Op.alloc 8]).1.pageSize) ∧
    ((alloc (init 0) 8).1.pages = (init 0).pages ++ [newPageBase (init 0)] ∧
      (alloc (init 0) 8).1.currentPage = some (newPageBase (init 0)) ∧
      (alloc (init 0) 8).2 = some (start (newPageBase (init 0))) ∧
      (alloc (init 0) 8).1.next = start (newPageBase (init 0)) + 8) :=
  ⟨claim_C3_page_capacity_and_growth.1 0 [Op.alloc 8, Op.alloc 8]
      (by
        intro op hop
        rcases List.mem_cons.mp hop with h | h
        · exact ⟨8, h⟩
        · rcases List.mem_cons.mp h with h2 | h2
          · exact ⟨8, h2⟩
          · cases h2),
    claim_C3_page_capacity_and_growth.2 (init 0) 8 ⟨0, [], rfl⟩ (by decide) (by decide)⟩

/-- Claim C4: in every reachable arena state, `memusage()` equals `pageSize`
multiplied by the number of pages allocated so far (the length of the chain,
which equals the page-allocation count); it is monotonically non-decreasing
across any further call sequence, and `rewindTo` never changes it. -/
theorem claim_C4_memusage (a : LinearAllocator) (hreach : Reachable a) :
    memusage a = a.pageSize * a.allocCount ∧
      memusage a = a.pageSize * a.pages.length ∧
      (∀ ops : List Op, memusage a ≤ memusage (run a ops)) ∧
      (∀ p : Nat, memusage (rewindTo a p) = memusage a) := by
  have hInv := reachable_inv hreach
  refine ⟨?_, ?_, memusage_run_le hreach, fun p => memusage_rewindTo a p⟩
  · rw [memusage_eq, pages_length_eq_allocCount hInv, Nat.mul_comm]
  · rw [memusage_eq, Nat.mul_comm]

/-- Witness for C4 at a concrete input: the reachable one-page state after a
single 8-byte allocation. -/
theorem claim_C4_witness :
    memusage (run (init 0) [Op.alloc 8]) =
        (run (init 0) [Op.alloc 8]).pageSize * (run (init 0) [Op.alloc 8]).allocCount ∧
      memusage (run (init 0) [Op.alloc 8]) =
        (run (init 0) [Op.alloc 8]).pageSize * (run (init 0) [Op.alloc 8]).pages.length ∧
      (∀ ops : List Op,
        memusage (run (init 0) [Op.alloc 8]) ≤ memusage (run (run (init 0) [Op.alloc 8]) ops)) ∧
      (∀ p : Nat,
        memusage (rewindTo (run (init 0) [Op.alloc 8]) p) = memusage (run (init 0) [Op.alloc 8])) :=
  claim_C4_memusage (run (init 0) [Op.alloc 8]) ⟨0, [Op.alloc 8], rfl⟩

/-- Claim C5: construction with `averageAllocSize = 0` yields the fixed
default target page size (16 KiB); a positive hint yields
`pageSize = count × averageAllocSize + headerSize` where `count` is the number
of average-sized objects fitting in `targetPageSize − headerSize`, floored at
the minimum object count 4; and in every case
`maxAllocSize = pageSize − headerSize`. -/
theorem claim_C5_sizing :
    (init 0).pageSize = TARGET_PAGE_SIZE ∧
      (∀ avg : Nat, 0 < avg →
        (init avg).pageSize =
          max MIN_OBJECT_COUNT ((TARGET_PAGE_SIZE - headerSize) / avg) * avg + headerSize) ∧
      (∀ avg : Nat, (init avg).maxAllocSize = (init avg).pageSize - headerSize) := by
  refine ⟨rfl, ?_, fun avg => rfl⟩
  intro avg hpos
  exact init_pageSize_of_pos (Nat.pos_iff_ne_zero.mp hpos)

/-- Witness for C5 at a concrete input: a positive hint of 100 bytes, giving
`count = 163` and `pageSize = 16304`. -/
theorem claim_C5_witness :
    0 < 100 ∧
      (init 100).pageSize =
        max MIN_OBJECT_COUNT ((TARGET_PAGE_SIZE - headerSize) / 100) * 100 + headerSize :=
  ⟨by decide, claim_C5_sizing.2.1 100 (by decide)⟩

/-- Claim C6 counterexample: `rewindTo` does not only move the cursor
backward.  After one 8-byte allocation on a fresh arena the cursor is 16396;
`rewindTo(20000)` (a pointer inside the current page, above the cursor) moves
the cursor forward to 20000, because the source checks only that the pointer
lies inside the current page, never that it is at or below `m_next`. -/
theorem claim_C6_counterexample :
    ¬((rewindTo (run (init 0) [Op.alloc 8]) 20000).next ≤ (run (init 0) [Op.alloc 8]).next) := by
  decide

/-- Claim C6 (amended): `rewindTo(p)` moves the bump cursor backward (to a
value at most its prior value) whenever `p` is at or below the prior cursor —
which is the case for every pointer previously returned by `alloc` and not yet
abandoned, i.e. under the documented stack discipline.  For an in-page pointer
above the cursor it instead moves the cursor forward to `p`. -/
theorem claim_C6_amended_rewind_backward (a : LinearAllocator) (p : Nat)
    (h : p ≤ a.next) : (rewindTo a p).next ≤ a.next := by
  rw [rewindTo]
  split
  · exact h
  · exact Nat.le_refl _

/-- Witness for the amended C6 at a concrete input. -/
theorem claim_C6_amended_witness :
    16390 ≤ (run (init 0) [Op.alloc 8]).next ∧
      (rewindTo (run (init 0) [Op.alloc 8]) 16390).next ≤ (run (init 0) [Op.alloc 8]).next :=
  ⟨by decide, claim_C6_amended_rewind_backward (run (init 0) [Op.alloc 8]) 16390 (by decide)⟩

/-- Claim C7: if `p` lies in the current page's usable range and
`p + size` is at most the bump cursor's prior value, then `rewindTo(p)`
followed by `alloc(size)` (with `0 < size ≤ maxAllocSize`) returns exactly
`p`, and the pair of calls allocates no new page: the page chain, current page
and `memusage()` are unchanged. -/
theorem claim_C7_rewind_then_alloc (a : LinearAllocator) (cp p size : Nat)
    (hreach : Reachable a) (hcp : a.currentPage = some cp)
    (hlo : start cp ≤ p) (hhi : p < pageEnd a cp)
    (hfit : p + size ≤ a.next) (hpos : 0 < size) (hle : size ≤ a.maxAllocSize) :
    (alloc (rewindTo a p) size).2 = some p ∧
      (alloc (rewindTo a p) size).1.pages = a.pages ∧
      (alloc (rewindTo a p) size).1.currentPage = a.currentPage ∧
      memusage (alloc (rewindTo a p) size).1 = memusage a := by
  have hInv := reachable_inv hreach
  have hgetd : a.currentPage.getD 0 = cp := by rw [hcp]; rfl
  have hrw : rewindTo a p = { a with next := p } := by
    rw [rewindTo, if_pos]
    rw [hgetd]
    exact ⟨hlo, hhi⟩
  have hnle : a.next ≤ cp + a.pageSize := by
    have := hInv.hnext_le
    rw [hgetd] at this
    exact this
  have hp0 : p ≠ 0 := by
    rw [start, headerSize] at hlo
    omega
  have hfits : ({ a with next := p } : LinearAllocator).next ≠ 0 ∧
      ({ a with next := p } : LinearAllocator).next + size ≤
        pageEnd { a with next := p }
          (({ a with next := p } : LinearAllocator).currentPage.getD 0) := by
    refine ⟨hp0, ?_⟩
    show p + size ≤ pageEnd { a with next := p } (a.currentPage.getD 0)
    rw [hgetd]
    show p + size ≤ cp + a.pageSize
    omega
  have hle2 : size ≤ ({ a with next := p } : LinearAllocator).maxAllocSize := hle
  rw [hrw, alloc_of_le hle2, ensureNext_fits hfits]
  exact ⟨rfl, rfl, rfl, rfl⟩

/-- Witness for C7 at a concrete input: rewind the single 8-byte allocation on
a fresh arena back to its own pointer and re-allocate 8 bytes. -/
theorem claim_C7_witness :
    (alloc (rewindTo (run (init 0) [Op.alloc 8]) 16388) 8).2 = some 16388 ∧
      (alloc (rewindTo (run (init 0) [Op.alloc 8]) 16388) 8).1.pages =
        (run (init 0) [Op.alloc 8]).pages ∧
      (alloc (rewindTo (run (init 0) [Op.alloc 8]) 16388) 8).1.currentPage =
        (run (init 0) [Op.alloc 8]).currentPage ∧
      memusage (alloc (rewindTo (run (init 0) [Op.alloc 8]) 16388) 8).1 =
        memusage (run (init 0) [Op.alloc 8]) :=
  claim_C7_rewind_then_alloc (run (init 0) [Op.alloc 8]) 16384 16388 8
    ⟨0, [Op.alloc 8], rfl⟩ (by decide) (by decide) (by decide) (by decide) (by decide) (by decide)

/-- Claim C8: for every pointer `p` that does not lie within the current
page's usable range, `rewindTo(p)` is a complete silent no-op: the whole arena
state is unchanged and no error is reported (the function has no error
channel). -/
theorem claim_C8_out_of_range_noop (a : LinearAllocator) (cp p : Nat)
    (hcp : a.currentPage = some cp)
    (hout : ¬(start cp ≤ p ∧ p < pageEnd a cp)) :
    rewindTo a p = a := by
  have hgetd : a.currentPage.getD 0 = cp := by rw [hcp]; rfl
  rw [rewindTo, hgetd, if_neg hout]

/-- Witness for C8 at a concrete input: a pointer below the single page of a
one-page arena. -/
theorem claim_C8_witness :
    rewindTo (run (init 0) [Op.alloc 8]) 3 = run (init 0) [Op.alloc 8] :=
  claim_C8_out_of_range_noop (run (init 0) [Op.alloc 8]) 16384 3 (by decide) (by decide)

/-- Claim C9 counterexample: not every operation preserves the claimed state
invariants.  The freshly constructed arena satisfies them, yet `rewindTo(100)`
on it does not: with `m_currentPage` null the source still computes
`start(m_currentPage) = headerSize` and `end(m_currentPage) = pageSize` from
the null pointer, accepts any pointer value in `[headerSize, pageSize)`, and
sets the bump cursor non-null while no current page exists. -/
theorem claim_C9_counterexample :
    StateInv (init 0) ∧ ¬ StateInv (rewindTo (init 0) 100) := by
  constructor
  · constructor
    · intro h
      exact absurd rfl h
    · intro cp h
      rw [init_currentPage] at h
      cases h
  · intro hs
    have h1 := hs.1
    have hnext : (rewindTo (init 0) 100).next = 100 := by decide
    have hcur : (rewindTo (init 0) 100).currentPage = none := by decide
    have h2 := h1 (by rw [hnext]; omega)
    rw [hcur] at h2
    exact h2

/-- Claim C9 (amended): from any reachable state satisfying the state
invariants, `alloc` preserves them, and `rewindTo` preserves them whenever at
least one page exists (`memusage` reads the state without mutating it).  The
only failure, forced by the counterexample, is `rewindTo` called before any
page has been allocated. -/
theorem claim_C9_amended_inv_preserved (a : LinearAllocator) (hreach : Reachable a)
    (hsi : StateInv a) :
    (∀ s, StateInv ((alloc a s).1)) ∧
      (∀ p, a.currentPage ≠ none → StateInv (rewindTo a p)) := by
  constructor
  · intro s
    by_cases hgt : a.maxAllocSize < s
    · have heq : (alloc a s).1 = a := by rw [alloc_of_gt hgt]
      rw [heq]
      exact hsi
    · have hle := Nat.not_lt.mp hgt
      have hreach2 : Reachable ((alloc a s).1) := reachable_step hreach (.alloc s)
      by_cases hc : a.next ≠ 0 ∧ a.next + s ≤ pageEnd a (a.currentPage.getD 0)
      · rcases hx : a.currentPage with _ | cp
        · have hcic := hsi.1 hc.1
          rw [hx] at hcic
          exact (hcic : False).elim
        · have hres : (alloc a s).1.currentPage = some cp := by
            rw [alloc_of_le hle, ensureNext_fits hc]
            exact hx
          exact stateInv_of_reachable_page hreach2 hres
      · have hres : (alloc a s).1.currentPage = some (newPageBase a) := by
          rw [alloc_of_le hle, ensureNext_grow (reachable_inv hreach) hc]
        exact stateInv_of_reachable_page hreach2 hres
  · intro p hne
    rcases hx : a.currentPage with _ | cp
    · exact absurd hx hne
    · have hreach2 : Reachable (rewindTo a p) := reachable_step hreach (.rewind p)
      have hres : (rewindTo a p).currentPage = some cp := by
        rw [rewindTo]
        split <;> exact hx
      exact stateInv_of_reachable_page hreach2 hres

/-- Witness for the amended C9 at a concrete input: the freshly constructed
default-sized arena. -/
theorem claim_C9_amended_witness :
    (∀ s, StateInv ((alloc (init 0) s).1)) ∧
      (∀ p, (init 0).currentPage ≠ none → StateInv (rewindTo (init 0) p)) :=
  claim_C9_amended_inv_preserved (init 0) ⟨0, [], rfl⟩
    ⟨fun h => absurd rfl h, fun cp h => by rw [init_currentPage] at h; cases h⟩

/-- Claim C10 (implicit edge case): `alloc(0)` does not fail — it returns the
bump cursor without advancing it, so two consecutive `alloc(0)` calls return
the same pointer; and called on the page-less initial state (null cursor, no
current page) it still allocates a full page, increasing `memusage()` by
`pageSize` and the chain length by one. -/
theorem claim_C10_alloc_zero (a : LinearAllocator) (hreach : Reachable a) :
    (alloc a 0).2 = some ((alloc a 0).1.next) ∧
      (alloc (alloc a 0).1 0).2 = (alloc a 0).2 ∧
      (a.currentPage = none → a.next = 0 →
        memusage (alloc a 0).1 = memusage a + a.pageSize ∧
        (alloc a 0).1.pages.length = a.pages.length + 1) := by
  have hInv := reachable_inv hreach
  have hle0 : (0 : Nat) ≤ a.maxAllocSize := Nat.zero_le _
  refine ⟨?_, ?_, ?_⟩
  · rw [alloc_of_le hle0]
    rfl
  · have hreach1 : Reachable ((alloc a 0).1) := reachable_step hreach (.alloc 0)
    have hInv1 := reachable_inv hreach1
    have hne : ((alloc a 0).1).next ≠ 0 := by
      rw [alloc_of_le hle0]
      show (ensureNext a 0).next + 0 ≠ 0
      have := ensureNext_next_ne_zero a 0
      omega
    have hfits : ((alloc a 0).1).next ≠ 0 ∧
        ((alloc a 0).1).next + 0 ≤
          pageEnd ((alloc a 0).1) (((alloc a 0).1).currentPage.getD 0) := by
      refine ⟨hne, ?_⟩
      have := hInv1.hnext_le
      rw [pageEnd]
      omega
    have hle1 : (0 : Nat) ≤ ((alloc a 0).1).maxAllocSize := Nat.zero_le _
    rw [alloc_of_le hle1, ensureNext_fits hfits, alloc_of_le hle0]
    rfl
  · intro hnone hzero
    have hc : ¬(a.next ≠ 0 ∧ a.next + 0 ≤ pageEnd a (a.currentPage.getD 0)) := by
      rw [hzero]
      simp
    constructor
    · rw [alloc_of_le hle0, ensureNext_grow hInv hc, memusage_eq, memusage_eq]
      dsimp only
      simp [List.length_append, Nat.add_mul]
    · rw [alloc_of_le hle0, ensureNext_grow hInv hc]
      dsimp only
      simp [List.length_append]

/-- Witness for C10 at a concrete input: the freshly constructed default-sized
arena, where both premises of the page-less case hold. -/
theorem claim_C10_witness :
    (alloc (init 0) 0).2 = some ((alloc (init 0) 0).1.next) ∧
      (alloc (alloc (init 0) 0).1 0).2 = (alloc (init 0) 0).2 ∧
      ((init 0).currentPage = none → (init 0).next = 0 →
        memusage (alloc (init 0) 0).1 = memusage (init 0) + (init 0).pageSize ∧
        (alloc (init 0) 0).1.pages.length = (init 0).pages.length + 1) :=
  claim_C10_alloc_zero (init 0) ⟨0, [], rfl⟩

end WebCore
